import Mathlib

/-!
Verification of the amortization engine of `CreditAnalyzer`
(`src/streamlit_app.py`, function `calculate_schedule`, lines 38-101).

The engine is embedded shallowly over exact rationals `ℚ`:

* a `PeriodRecord` mirrors one appended dictionary of the Python loop
  (column names translated: "Місяць" = month, "Платіж" = payment,
  "Тіло" = principalPart, "Відсотки" = interest, "Достроково" = extraPaid,
  "Залишок" = remaining).  The calendar-date column is presentation glue
  (start date plus `i-1` months) and carries no numeric content, so it is
  omitted from the record.
* the mutually exclusive optional arguments `years` / `fixed_payment` are
  embedded as the sum type `Mode` (the Python code tests
  `fixed_payment is not None` first, which is exactly the
  `Mode.fixedPayment` case; otherwise it uses `years`).
* the `for i in range(1, max_months + 1)` loop becomes the fuel-bounded
  recursion `scheduleLoop`, called with fuel `600 = max_months` and the
  1-based period index `i`.
* `irregular_payments` (a dict with absent keys meaning zero) becomes a
  total function `Nat → ℚ`; `i in irregular_payments` adding
  `irregular_payments[i]` is `irr i` with value `0` off the support.
-/

/-- One row of the produced schedule: the dictionary appended at lines
89-97 of `streamlit_app.py`. -/
structure PeriodRecord where
  month : Nat
  payment : ℚ
  principalPart : ℚ
  interest : ℚ
  extraPaid : ℚ
  remaining : ℚ
  deriving Repr, DecidableEq

/-- The mutually exclusive mode selection of `calculate_schedule`:
`fixed_payment is not None` (lines 50-54) versus the fixed-term branch
using `years` (lines 55-60). -/
inductive Mode where
  | fixedTerm (years : Nat)
  | fixedPayment (fp : ℚ)
  deriving Repr, DecidableEq

/-- The iteration of `calculate_schedule`, lines 64-99: period index `i`
runs while fuel lasts (fuel = `600 - (i - 1)` at the call site); the loop
breaks when the balance is at most the `0.01` epsilon; otherwise it accrues
interest `bal * mr`, adds the extras, and takes the payoff branch (line 78)
or the regular branch (line 83), appending one record and continuing with
the updated balance. -/
def scheduleLoop (mr bp me : ℚ) (irr : Nat → ℚ) : Nat → ℚ → Nat → List PeriodRecord
  | 0, _, _ => []
  | fuel + 1, bal, i =>
    if bal ≤ 1/100 then []
    else
      let interest := bal * mr
      let extra := me + irr i
      let attempt := bp + extra
      if bal + interest ≤ attempt then
        ⟨i, bal + interest, bal, interest,
          max 0 (bal + interest - (interest + (bp - interest))), 0⟩ ::
          scheduleLoop mr bp me irr fuel 0 (i + 1)
      else
        ⟨i, attempt, attempt - interest, interest, extra,
          bal - (attempt - interest)⟩ ::
          scheduleLoop mr bp me irr fuel (bal - (attempt - interest)) (i + 1)

/-- The base payment of the fixed-term branch, lines 56-60: the annuity
payment over `years * 12` periods when the monthly rate is positive, else
the principal split evenly. -/
def fixedTermBasePayment (principal mr : ℚ) (years : Nat) : ℚ :=
  let m := years * 12
  if 0 < mr then
    principal * (mr * (1 + mr) ^ m) / ((1 + mr) ^ m - 1)
  else
    principal / (m : ℚ)

/-- `calculate_schedule` (lines 38-101), with the date argument omitted:
derives the monthly rate and base payment, rejects an infeasible fixed
payment (lines 52-54) by returning the empty schedule, and otherwise runs
the loop from the full principal with fuel 600. -/
def calculate_schedule (principal annual_rate : ℚ) (mode : Mode)
    (monthly_extra : ℚ) (irregular_payments : Nat → ℚ) : List PeriodRecord :=
  let monthly_rate := annual_rate / 12 / 100
  match mode with
  | Mode.fixedPayment fp =>
    if fp ≤ principal * monthly_rate then []
    else scheduleLoop monthly_rate fp monthly_extra irregular_payments 600 principal 1
  | Mode.fixedTerm years =>
    scheduleLoop monthly_rate (fixedTermBasePayment principal monthly_rate years)
      monthly_extra irregular_payments 600 principal 1

/-- Sum of the interest column of a schedule (the caller's
`df["Відсотки"].sum()`). -/
def totalInterest (s : List PeriodRecord) : ℚ :=
  (s.map PeriodRecord.interest).sum

/-- The ideal declining balance after `k` regular periods at monthly rate
`mr` and constant payment `A`: interest accrues on the running balance and
the full payment is then subtracted. -/
def balAfter (mr A b : ℚ) : Nat → ℚ
  | 0 => b
  | k + 1 => balAfter mr A b k * (1 + mr) - A

/-- The all-zero prepayment map: an empty `irregular_payments` dict. -/
def noExtras : Nat → ℚ := fun _ => 0

section

/- Batteries seals the rational-number operations against unfolding; for
concrete evaluation of schedules by `decide` we locally restore the
default reducibility.  (The kernel is unaffected by reducibility
attributes, so proofs are unchanged in meaning.) -/
attribute [local semireducible] Rat.add Rat.mul Rat.sub Rat.inv

/-- Unfolding equation for one step of the loop. -/
theorem scheduleLoop_succ (mr bp me : ℚ) (irr : Nat → ℚ) (fuel : Nat) (bal : ℚ) (i : Nat) :
    scheduleLoop mr bp me irr (fuel + 1) bal i =
      if bal ≤ 1/100 then []
      else if bal + bal * mr ≤ bp + (me + irr i) then
        ⟨i, bal + bal * mr, bal, bal * mr,
          max 0 (bal + bal * mr - (bal * mr + (bp - bal * mr))), 0⟩ ::
          scheduleLoop mr bp me irr fuel 0 (i + 1)
      else
        ⟨i, bp + (me + irr i), bp + (me + irr i) - bal * mr, bal * mr, me + irr i,
          bal - (bp + (me + irr i) - bal * mr)⟩ ::
          scheduleLoop mr bp me irr fuel (bal - (bp + (me + irr i) - bal * mr)) (i + 1) := rfl

/-- A balance at or below the 0.01 epsilon produces no further records. -/
theorem scheduleLoop_of_small (mr bp me : ℚ) (irr : Nat → ℚ) (fuel : Nat) (bal : ℚ) (i : Nat)
    (h : bal ≤ 1/100) : scheduleLoop mr bp me irr fuel bal i = [] := by
  cases fuel with
  | zero => rfl
  | succ fuel => rw [scheduleLoop_succ, if_pos h]

/-- The loop can produce at most `fuel` records. -/
theorem scheduleLoop_length_le (mr bp me : ℚ) (irr : Nat → ℚ) :
    ∀ (fuel : Nat) (bal : ℚ) (i : Nat), (scheduleLoop mr bp me irr fuel bal i).length ≤ fuel := by
  intro fuel
  induction fuel with
  | zero => intro bal i; simp [scheduleLoop]
  | succ fuel ih =>
    intro bal i
    rw [scheduleLoop_succ]
    split
    · simp
    · split
      · simpa only [List.length_cons] using Nat.succ_le_succ (ih 0 (i + 1))
      · simpa only [List.length_cons] using Nat.succ_le_succ (ih _ (i + 1))

/-- Every record produced by the loop satisfies
`payment = principalPart + interest`. -/
theorem scheduleLoop_payment_split (mr bp me : ℚ) (irr : Nat → ℚ) :
    ∀ (fuel : Nat) (bal : ℚ) (i : Nat),
      ∀ rec ∈ scheduleLoop mr bp me irr fuel bal i,
        rec.payment = rec.principalPart + rec.interest := by
  intro fuel
  induction fuel with
  | zero => intro bal i rec h; simp [scheduleLoop] at h
  | succ fuel ih =>
    intro bal i rec h
    rw [scheduleLoop_succ] at h
    split at h
    · simp at h
    · split at h
      · rcases List.mem_cons.1 h with h | h
        · subst h; rfl
        · exact ih 0 (i + 1) rec h
      · rcases List.mem_cons.1 h with h | h
        · subst h; simp only; ring
        · exact ih _ (i + 1) rec h

/-- If the loop stops before exhausting its fuel, the last record's
remaining balance is either exactly 0 (payoff branch) or in the interval
(0, 1/100] (epsilon break after a regular record). -/
theorem scheduleLoop_getLast_small (mr bp me : ℚ) (irr : Nat → ℚ) :
    ∀ (fuel : Nat) (bal : ℚ) (i : Nat) (rec : PeriodRecord),
      (scheduleLoop mr bp me irr fuel bal i).getLast? = some rec →
      (scheduleLoop mr bp me irr fuel bal i).length < fuel →
      rec.remaining = 0 ∨ (0 < rec.remaining ∧ rec.remaining ≤ 1/100) := by
  intro fuel
  induction fuel with
  | zero => intro bal i rec _ hlen; exact absurd hlen (Nat.not_lt_zero _)
  | succ fuel ih =>
    intro bal i rec hlast hlen
    rw [scheduleLoop_succ] at hlast hlen
    by_cases hbal : bal ≤ 1/100
    · rw [if_pos hbal] at hlast
      simp at hlast
    · rw [if_neg hbal] at hlast hlen
      by_cases hpay : bal + bal * mr ≤ bp + (me + irr i)
      · rw [if_pos hpay] at hlast
        rw [scheduleLoop_of_small mr bp me irr fuel 0 (i + 1) (by norm_num)] at hlast
        have : rec.remaining = 0 := by
          have h0 : rec = ⟨i, bal + bal * mr, bal, bal * mr,
              max 0 (bal + bal * mr - (bal * mr + (bp - bal * mr))), 0⟩ :=
            (Option.some.inj hlast).symm
          rw [h0]
        exact Or.inl this
      · rw [if_neg hpay] at hlast hlen
        rcases hrest : scheduleLoop mr bp me irr fuel (bal - (bp + (me + irr i) - bal * mr)) (i + 1)
          with _ | ⟨b, t⟩
        · rw [hrest] at hlast hlen
          have h0 : rec = ⟨i, bp + (me + irr i), bp + (me + irr i) - bal * mr, bal * mr,
              me + irr i, bal - (bp + (me + irr i) - bal * mr)⟩ :=
            (Option.some.inj hlast).symm
          simp only [List.length_cons, List.length_nil] at hlen
          have hfuel : 1 ≤ fuel := Nat.lt_of_succ_lt_succ hlen
          have hsmall : bal - (bp + (me + irr i) - bal * mr) ≤ 1/100 := by
            by_contra hgt
            rcases Nat.exists_eq_add_of_le hfuel with ⟨f, hf⟩
            rw [hf, Nat.add_comm 1 f, scheduleLoop_succ, if_neg hgt] at hrest
            split at hrest <;> exact List.cons_ne_nil _ _ hrest
          have hpos : 0 < bal - (bp + (me + irr i) - bal * mr) := by
            push_neg at hpay
            linarith
          rw [h0]
          exact Or.inr ⟨hpos, hsmall⟩
        · rw [hrest] at hlast hlen
          rw [List.getLast?_cons_cons] at hlast
          apply ih (bal - (bp + (me + irr i) - bal * mr)) (i + 1) rec (hrest ▸ hlast)
          rw [hrest]
          simp only [List.length_cons] at hlen ⊢
          exact Nat.lt_of_succ_lt_succ hlen

theorem totalInterest_nil : totalInterest [] = 0 := rfl

theorem totalInterest_cons (rec : PeriodRecord) (l : List PeriodRecord) :
    totalInterest (rec :: l) = rec.interest + totalInterest l := by
  simp [totalInterest]

/-- With a non-negative monthly rate, the interest column sums to a
non-negative total. -/
theorem scheduleLoop_totalInterest_nonneg (mr bp me : ℚ) (irr : Nat → ℚ) (hmr : 0 ≤ mr) :
    ∀ (fuel : Nat) (bal : ℚ) (i : Nat),
      0 ≤ totalInterest (scheduleLoop mr bp me irr fuel bal i) := by
  intro fuel
  induction fuel with
  | zero => intro bal i; simp [scheduleLoop, totalInterest_nil]
  | succ fuel ih =>
    intro bal i
    rw [scheduleLoop_succ]
    by_cases hbal : bal ≤ 1/100
    · rw [if_pos hbal, totalInterest_nil]
    · rw [if_neg hbal]
      have hb : (0:ℚ) < bal := lt_trans (by norm_num) (not_le.1 hbal)
      have hint : 0 ≤ bal * mr := mul_nonneg hb.le hmr
      split
      · rw [totalInterest_cons]
        exact add_nonneg hint (ih 0 (i + 1))
      · rw [totalInterest_cons]
        exact add_nonneg hint (ih _ (i + 1))

/-- Loop invariant behind claim C4: when the rate and extras are
non-negative and the base payment strictly dominates the interest on the
bound `P0` of the running balance, every produced record has a remaining
balance that is non-negative and strictly below the balance the loop was
entered with. -/
theorem scheduleLoop_remaining_bounds (mr bp me : ℚ) (irr : Nat → ℚ) (P0 : ℚ)
    (hmr : 0 ≤ mr) (hme : 0 ≤ me) (hirr : ∀ j, 0 ≤ irr j) (hbp : P0 * mr < bp) :
    ∀ (fuel : Nat) (bal : ℚ) (i : Nat), bal ≤ P0 →
      ∀ rec ∈ scheduleLoop mr bp me irr fuel bal i,
        0 ≤ rec.remaining ∧ rec.remaining < bal := by
  intro fuel
  induction fuel with
  | zero => intro bal i _ rec h; simp [scheduleLoop] at h
  | succ fuel ih =>
    intro bal i hble rec h
    rw [scheduleLoop_succ] at h
    by_cases hbal : bal ≤ 1/100
    · rw [if_pos hbal] at h; simp at h
    · rw [if_neg hbal] at h
      have hb : (0:ℚ) < bal := lt_trans (by norm_num) (not_le.1 hbal)
      by_cases hpay : bal + bal * mr ≤ bp + (me + irr i)
      · rw [if_pos hpay, scheduleLoop_of_small mr bp me irr fuel 0 (i + 1) (by norm_num)] at h
        rcases List.mem_cons.1 h with h | h
        · subst h; exact ⟨le_refl 0, hb⟩
        · simp at h
      · rw [if_neg hpay] at h
        have hint : bal * mr ≤ P0 * mr := mul_le_mul_of_nonneg_right hble hmr
        have hextra : 0 ≤ me + irr i := add_nonneg hme (hirr i)
        have hnb_lt : bal - (bp + (me + irr i) - bal * mr) < bal := by linarith
        have hnb_pos : 0 < bal - (bp + (me + irr i) - bal * mr) := by
          push_neg at hpay; linarith
        rcases List.mem_cons.1 h with h | h
        · subst h; exact ⟨hnb_pos.le, hnb_lt⟩
        · have := ih _ (i + 1) (le_trans hnb_lt.le hble) rec h
          exact ⟨this.1, lt_trans this.2 hnb_lt⟩

/-- Loop invariant behind claim C4: under the same hypotheses the
remaining-balance column is strictly decreasing along the schedule. -/
theorem scheduleLoop_chain (mr bp me : ℚ) (irr : Nat → ℚ) (P0 : ℚ)
    (hmr : 0 ≤ mr) (hme : 0 ≤ me) (hirr : ∀ j, 0 ≤ irr j) (hbp : P0 * mr < bp) :
    ∀ (fuel : Nat) (bal : ℚ) (i : Nat), bal ≤ P0 →
      List.Chain' (fun r s => s.remaining < r.remaining)
        (scheduleLoop mr bp me irr fuel bal i) := by
  intro fuel
  induction fuel with
  | zero => intro bal i _; simp [scheduleLoop]
  | succ fuel ih =>
    intro bal i hble
    rw [scheduleLoop_succ]
    by_cases hbal : bal ≤ 1/100
    · rw [if_pos hbal]; exact List.chain'_nil
    · rw [if_neg hbal]
      by_cases hpay : bal + bal * mr ≤ bp + (me + irr i)
      · rw [if_pos hpay, scheduleLoop_of_small mr bp me irr fuel 0 (i + 1) (by norm_num)]
        exact List.chain'_singleton _
      · rw [if_neg hpay]
        rcases hrest : scheduleLoop mr bp me irr fuel (bal - (bp + (me + irr i) - bal * mr)) (i + 1)
          with _ | ⟨b, t⟩
        · exact List.chain'_singleton _
        · rw [List.chain'_cons]
          constructor
          · have hbmem : b ∈ scheduleLoop mr bp me irr fuel
                (bal - (bp + (me + irr i) - bal * mr)) (i + 1) := by
              rw [hrest]; exact List.mem_cons_self b t
            have hint : bal * mr ≤ P0 * mr := mul_le_mul_of_nonneg_right hble hmr
            have hextra : 0 ≤ me + irr i := add_nonneg hme (hirr i)
            have hnb_lt : bal - (bp + (me + irr i) - bal * mr) < bal := by linarith
            exact (scheduleLoop_remaining_bounds mr bp me irr P0 hmr hme hirr hbp fuel _
              (i + 1) (le_trans hnb_lt.le hble) b hbmem).2
          · have hint : bal * mr ≤ P0 * mr := mul_le_mul_of_nonneg_right hble hmr
            have hextra : 0 ≤ me + irr i := add_nonneg hme (hirr i)
            have hnb_lt : bal - (bp + (me + irr i) - bal * mr) < bal := by linarith
            exact hrest ▸ ih _ (i + 1) (le_trans hnb_lt.le hble)

/-- Comparison lemma behind claim C2: running the loop from a smaller
balance with pointwise larger extras (same rate and base payment) yields a
schedule that is no longer and accrues no more total interest. -/
theorem scheduleLoop_compare (mr bp me me' : ℚ) (irr irr' : Nat → ℚ)
    (hmr : 0 ≤ mr) (hext : ∀ j, me + irr j ≤ me' + irr' j) :
    ∀ (fuel : Nat) (bal bal' : ℚ) (i : Nat), bal' ≤ bal →
      (scheduleLoop mr bp me' irr' fuel bal' i).length ≤
        (scheduleLoop mr bp me irr fuel bal i).length ∧
      totalInterest (scheduleLoop mr bp me' irr' fuel bal' i) ≤
        totalInterest (scheduleLoop mr bp me irr fuel bal i) := by
  intro fuel
  induction fuel with
  | zero => intro bal bal' i _; simp [scheduleLoop]
  | succ fuel ih =>
    intro bal bal' i hble
    by_cases hbal' : bal' ≤ 1/100
    · rw [scheduleLoop_of_small mr bp me' irr' (fuel + 1) bal' i hbal', totalInterest_nil]
      exact ⟨Nat.zero_le _, scheduleLoop_totalInterest_nonneg mr bp me irr hmr (fuel + 1) bal i⟩
    · have hbal : ¬ bal ≤ 1/100 := fun h => hbal' (le_trans hble h)
      rw [scheduleLoop_succ, scheduleLoop_succ, if_neg hbal', if_neg hbal]
      have hb' : (0:ℚ) < bal' := lt_trans (by norm_num) (not_le.1 hbal')
      have hintle : bal' * mr ≤ bal * mr := mul_le_mul_of_nonneg_right hble hmr
      have haccr : bal' + bal' * mr ≤ bal + bal * mr := add_le_add hble hintle
      by_cases hpay : bal + bal * mr ≤ bp + (me + irr i)
      · have hpay' : bal' + bal' * mr ≤ bp + (me' + irr' i) :=
          le_trans haccr (le_trans hpay (add_le_add_left (hext i) bp))
        rw [if_pos hpay, if_pos hpay',
          scheduleLoop_of_small mr bp me irr fuel 0 (i + 1) (by norm_num),
          scheduleLoop_of_small mr bp me' irr' fuel 0 (i + 1) (by norm_num)]
        refine ⟨le_refl 1, ?_⟩
        rw [totalInterest_cons, totalInterest_cons, totalInterest_nil]
        simpa using hintle
      · rw [if_neg hpay]
        by_cases hpay' : bal' + bal' * mr ≤ bp + (me' + irr' i)
        · rw [if_pos hpay', scheduleLoop_of_small mr bp me' irr' fuel 0 (i + 1) (by norm_num)]
          constructor
          · simpa only [List.length_cons, List.length_nil] using
              Nat.succ_le_succ (Nat.zero_le _)
          · rw [totalInterest_cons, totalInterest_cons, totalInterest_nil]
            simp only
            have := scheduleLoop_totalInterest_nonneg mr bp me irr hmr fuel
              (bal - (bp + (me + irr i) - bal * mr)) (i + 1)
            linarith
        · rw [if_neg hpay']
          have hnble : bal' - (bp + (me' + irr' i) - bal' * mr) ≤
              bal - (bp + (me + irr i) - bal * mr) := by
            have := hext i
            linarith
          obtain ⟨hl, hi⟩ := ih _ _ (i + 1) hnble
          constructor
          · simpa only [List.length_cons] using Nat.succ_le_succ hl
          · rw [totalInterest_cons, totalInterest_cons]
            simp only
            linarith

/-- In the fixed-term mode the computed base payment strictly exceeds the
first period's interest `P * mr` (lines 55-60; for a positive principal
and at least one year of term). -/
theorem fixedTermBasePayment_gt (P mr : ℚ) (years : Nat)
    (hP : 0 < P) (hmr : 0 ≤ mr) (hy : 1 ≤ years) :
    P * mr < fixedTermBasePayment P mr years := by
  unfold fixedTermBasePayment
  simp only
  by_cases h : 0 < mr
  · rw [if_pos h]
    have hm : years * 12 ≠ 0 := by omega
    have hX : 1 < (1 + mr) ^ (years * 12) := one_lt_pow₀ (by linarith) hm
    have hX1 : (0:ℚ) < (1 + mr) ^ (years * 12) - 1 := by linarith
    rw [lt_div_iff₀ hX1]
    have hkey : P * mr * ((1 + mr) ^ (years * 12) - 1) =
        P * (mr * (1 + mr) ^ (years * 12)) - P * mr := by ring
    have hpos : 0 < P * mr := mul_pos hP h
    linarith [hkey]
  · rw [if_neg h]
    have hmr0 : mr = 0 := le_antisymm (not_lt.1 h) hmr
    rw [hmr0, mul_zero]
    have hmQ : (0:ℚ) < ((years * 12 : Nat) : ℚ) := by
      have : (0:Nat) < years * 12 := by omega
      exact_mod_cast this
    exact div_pos hP hmQ

theorem balAfter_succ (mr A b : ℚ) (k : Nat) :
    balAfter mr A b (k + 1) = balAfter mr A b k * (1 + mr) - A := rfl

/-- Shifting the start of the ideal declining balance by one period. -/
theorem balAfter_shift (mr A b : ℚ) :
    ∀ k, balAfter mr A (balAfter mr A b 1) k = balAfter mr A b (k + 1) := by
  intro k
  induction k with
  | zero => rfl
  | succ k ih =>
    rw [balAfter_succ mr A (balAfter mr A b 1) k, ih]
    rfl

/-- Closed form of the ideal declining balance, multiplied through by the
monthly rate. -/
theorem balAfter_closed (mr A b : ℚ) :
    ∀ k, balAfter mr A b k * mr = (b * mr - A) * (1 + mr) ^ k + A := by
  intro k
  induction k with
  | zero => simp [balAfter]
  | succ k ih =>
    rw [balAfter_succ, pow_succ]
    have : (balAfter mr A b k * (1 + mr) - A) * mr =
        balAfter mr A b k * mr * (1 + mr) - A * mr := by ring
    rw [this, ih]
    ring

/-- Closed form of the ideal declining balance at rate zero. -/
theorem balAfter_closed_zero (A b : ℚ) :
    ∀ k, balAfter 0 A b k = b - (k : ℚ) * A := by
  intro k
  induction k with
  | zero => simp [balAfter]
  | succ k ih =>
    rw [balAfter_succ, ih]
    push_cast
    ring

/-- Core run lemma behind claim C1: if the ideal declining balance stays
strictly above the epsilon for `n` periods and lands exactly on zero after
period `n`, then the loop (with no extras) emits exactly `n` records and
the last one has remaining balance exactly `0`. -/
theorem scheduleLoop_annuity (mr A : ℚ) :
    ∀ (n : Nat), 1 ≤ n → ∀ (fuel : Nat), n ≤ fuel → ∀ (b : ℚ) (i : Nat),
      (∀ k, k < n → 1/100 < balAfter mr A b k) →
      balAfter mr A b n = 0 →
      (scheduleLoop mr A 0 noExtras fuel b i).length = n ∧
      ∃ rec, (scheduleLoop mr A 0 noExtras fuel b i).getLast? = some rec ∧
        rec.remaining = 0 := by
  intro n
  induction n with
  | zero => intro h; exact absurd h (by omega)
  | succ n ihn =>
    intro _ fuel hfuel b i hmid hend
    rcases Nat.exists_eq_add_of_le hfuel with ⟨f, hf⟩
    subst hf
    have hb : 1/100 < b := by simpa [balAfter] using hmid 0 (Nat.succ_pos n)
    rw [Nat.add_comm (n + 1) f, ← Nat.add_assoc]
    rw [scheduleLoop_succ, if_neg (not_le.2 hb)]
    rcases Nat.eq_zero_or_pos n with hn0 | hn1
    · -- final period: the payoff branch fires exactly
      subst hn0
      have hA : A = b + b * mr := by
        have h1 : balAfter mr A b 1 = 0 := hend
        rw [balAfter_succ] at h1
        simp [balAfter] at h1
        linarith
      have hpay : b + b * mr ≤ A + (0 + noExtras i) := by
        simp [noExtras, hA]
      rw [if_pos hpay, scheduleLoop_of_small mr A 0 noExtras (f + 0) 0 (i + 1) (by norm_num)]
      exact ⟨rfl, ⟨_, rfl, rfl⟩⟩
    · -- a regular period followed by the remaining `n` periods
      have hb0 : balAfter mr A b 0 = b := rfl
      have hr1 : b * (1 + mr) = b + b * mr := by ring
      have hreg : ¬ (b + b * mr ≤ A + (0 + noExtras i)) := by
        have h1 : 1/100 < balAfter mr A b 1 := hmid 1 (by omega)
        rw [balAfter_succ, hb0] at h1
        simp only [noExtras, add_zero]
        intro hle
        linarith
      rw [if_neg hreg]
      have hnb : b - (A + (0 + noExtras i) - b * mr) = balAfter mr A b 1 := by
        rw [balAfter_succ, hb0]
        simp only [noExtras, add_zero]
        linarith
      rw [hnb]
      have hmid1 : ∀ k, k < n → 1/100 < balAfter mr A (balAfter mr A b 1) k := by
        intro k hk
        rw [balAfter_shift]
        exact hmid (k + 1) (by omega)
      have hend1 : balAfter mr A (balAfter mr A b 1) n = 0 := by
        rw [balAfter_shift]
        exact hend
      obtain ⟨hlen, rec', hlast', hrem'⟩ :=
        ihn hn1 (f + n) (Nat.le_add_left n f) (balAfter mr A b 1) (i + 1) hmid1 hend1
      refine ⟨by rw [List.length_cons, hlen], rec', ?_, hrem'⟩
      rcases hr : scheduleLoop mr A 0 noExtras (f + n) (balAfter mr A b 1) (i + 1)
        with _ | ⟨x, xs⟩
      · rw [hr] at hlen
        simp at hlen
        omega
      · rw [List.getLast?_cons_cons]
        rw [hr] at hlast'
        exact hlast'

/-- For a positive-rate fixed-term loan whose base payment exceeds the
epsilon grossed up by one period of interest, the ideal declining balance
stays above the epsilon for the whole term and lands exactly on zero. -/
theorem balAfter_conditions_pos (P mr : ℚ) (y : Nat)
    (hP : 0 < P) (hmr : 0 < mr) (hy : 1 ≤ y)
    (hA : 1/100 * (1 + mr) < fixedTermBasePayment P mr y) :
    (∀ k, k < y * 12 → 1/100 < balAfter mr (fixedTermBasePayment P mr y) P k) ∧
    balAfter mr (fixedTermBasePayment P mr y) P (y * 12) = 0 := by
  have hm : y * 12 ≠ 0 := by omega
  have hX : 1 < (1 + mr) ^ (y * 12) := one_lt_pow₀ (by linarith) hm
  have hX1 : (0:ℚ) < (1 + mr) ^ (y * 12) - 1 := by linarith
  have hA_def : fixedTermBasePayment P mr y =
      P * (mr * (1 + mr) ^ (y * 12)) / ((1 + mr) ^ (y * 12) - 1) := by
    unfold fixedTermBasePayment
    rw [if_pos hmr]
  have hAeq : fixedTermBasePayment P mr y * ((1 + mr) ^ (y * 12) - 1) =
      P * (mr * (1 + mr) ^ (y * 12)) := by
    rw [hA_def]
    field_simp
  set A := fixedTermBasePayment P mr y with hAset
  have hzero : balAfter mr A P (y * 12) = 0 := by
    have h1 : balAfter mr A P (y * 12) * mr = 0 := by
      rw [balAfter_closed]
      have hring : (P * mr - A) * (1 + mr) ^ (y * 12) + A =
          P * (mr * (1 + mr) ^ (y * 12)) - A * ((1 + mr) ^ (y * 12) - 1) := by ring
      rw [hring, hAeq, sub_self]
    rcases mul_eq_zero.1 h1 with h | h
    · exact h
    · exact absurd h (ne_of_gt hmr)
  refine ⟨?_, hzero⟩
  have hAgt : P * mr < A := fixedTermBasePayment_gt P mr y hP hmr.le hy
  have h1mr : (0:ℚ) < 1 + mr := by linarith
  have hm1 : y * 12 - 1 + 1 = y * 12 := by omega
  have hlasteq : balAfter mr A P (y * 12 - 1) * (1 + mr) - A = 0 := by
    have := balAfter_succ mr A P (y * 12 - 1)
    rw [hm1] at this
    rw [← this, hzero]
  have hlastgt : 1/100 < balAfter mr A P (y * 12 - 1) := by
    have hval : balAfter mr A P (y * 12 - 1) * (1 + mr) = A := by linarith
    have hcmp : 1/100 * (1 + mr) < balAfter mr A P (y * 12 - 1) * (1 + mr) := by
      rw [hval]; exact hA
    exact (mul_lt_mul_right h1mr).1 hcmp
  intro k hk
  have hk1 : k ≤ y * 12 - 1 := by omega
  have hpow : (1 + mr) ^ k ≤ (1 + mr) ^ (y * 12 - 1) :=
    pow_le_pow_right₀ (by linarith) hk1
  have hneg : P * mr - A < 0 := by linarith
  have hmono : balAfter mr A P (y * 12 - 1) * mr ≤ balAfter mr A P k * mr := by
    rw [balAfter_closed, balAfter_closed]
    have := mul_le_mul_of_nonpos_left hpow hneg.le
    linarith
  have := le_of_mul_le_mul_right hmono hmr
  linarith

/-- The zero-rate analogue: the even split `P / m` drives the ideal
balance to exactly zero after `m` periods, staying above the epsilon. -/
theorem balAfter_conditions_zero (P : ℚ) (y : Nat)
    (_hP : 0 < P) (hy : 1 ≤ y)
    (hA : 1/100 * (1 + 0) < fixedTermBasePayment P 0 y) :
    (∀ k, k < y * 12 → 1/100 < balAfter 0 (fixedTermBasePayment P 0 y) P k) ∧
    balAfter 0 (fixedTermBasePayment P 0 y) P (y * 12) = 0 := by
  have hmQ : (0:ℚ) < ((y * 12 : Nat) : ℚ) := by
    have : (0:Nat) < y * 12 := by omega
    exact_mod_cast this
  have hA_def : fixedTermBasePayment P 0 y = P / ((y * 12 : Nat) : ℚ) := by
    unfold fixedTermBasePayment
    rw [if_neg (lt_irrefl 0)]
  have hPA : P = ((y * 12 : Nat) : ℚ) * fixedTermBasePayment P 0 y := by
    rw [hA_def]
    field_simp
  set A := fixedTermBasePayment P 0 y with hAset
  have hApos : 1/100 < A := by linarith
  constructor
  · intro k hk
    rw [balAfter_closed_zero, hPA]
    have hcast : (k : ℚ) + 1 ≤ ((y * 12 : Nat) : ℚ) := by exact_mod_cast hk
    have hfac : (1:ℚ) ≤ ((y * 12 : Nat) : ℚ) - (k : ℚ) := by linarith
    have : A * 1 ≤ A * (((y * 12 : Nat) : ℚ) - (k : ℚ)) :=
      mul_le_mul_of_nonneg_left hfac (by linarith)
    calc 1/100 < A := hApos
    _ = A * 1 := (mul_one A).symm
    _ ≤ A * (((y * 12 : Nat) : ℚ) - (k : ℚ)) := this
    _ = ((y * 12 : Nat) : ℚ) * A - (k : ℚ) * A := by ring
  · rw [balAfter_closed_zero, hPA]
    ring

/-- Claim C3: in fixed-payment mode `calculate_schedule` returns the empty
schedule whenever the supplied payment is at most `principal * (rate/12/100)`
(equality included), appending no record; for a payment strictly above that
threshold (and a principal above the 0.01 epsilon) it iterates and returns
a non-empty schedule. -/
theorem c3_infeasible_fixed_payment (P a fp me : ℚ) (irr : Nat → ℚ) :
    (fp ≤ P * (a/12/100) → calculate_schedule P a (Mode.fixedPayment fp) me irr = []) ∧
    (P * (a/12/100) < fp → 1/100 < P →
      calculate_schedule P a (Mode.fixedPayment fp) me irr ≠ []) := by
  constructor
  · intro h
    simp only [calculate_schedule]
    rw [if_pos h]
  · intro h hP
    simp only [calculate_schedule]
    rw [if_neg (not_le.2 h)]
    have h600 : (600 : Nat) = 599 + 1 := rfl
    rw [h600, scheduleLoop_succ, if_neg (not_le.2 hP)]
    split <;> exact List.cons_ne_nil _ _

/-- Witness for C3 at the exact threshold (principal 100, rate 12%,
payment 1 = first month's interest, rejected) and one feasible payment. -/
theorem c3_witness :
    ((1:ℚ) ≤ 100 * (12/12/100) ∧
      calculate_schedule 100 12 (Mode.fixedPayment 1) 0 noExtras = []) ∧
    (100 * (12/12/100) < (50:ℚ) ∧ (1:ℚ)/100 < 100 ∧
      calculate_schedule 100 12 (Mode.fixedPayment 50) 0 noExtras ≠ []) :=
  ⟨⟨by norm_num, (c3_infeasible_fixed_payment 100 12 1 0 noExtras).1 (by norm_num)⟩,
    ⟨by norm_num, by norm_num,
      (c3_infeasible_fixed_payment 100 12 50 0 noExtras).2 (by norm_num) (by norm_num)⟩⟩

/-- Claim C5: in every record of every schedule, the total payment equals
the principal portion plus the interest portion (both the regular and the
payoff branch). -/
theorem c5_payment_split (P a me : ℚ) (irr : Nat → ℚ) (mode : Mode) :
    ∀ rec ∈ calculate_schedule P a mode me irr,
      rec.payment = rec.principalPart + rec.interest := by
  cases mode with
  | fixedTerm y =>
    simp only [calculate_schedule]
    exact scheduleLoop_payment_split _ _ _ _ 600 P 1
  | fixedPayment fp =>
    simp only [calculate_schedule]
    split
    · intro rec h; simp at h
    · exact scheduleLoop_payment_split _ _ _ _ 600 P 1

/-- Witness for C5 on the first record of the zero-interest scenario. -/
theorem c5_witness :
    (⟨1, 10000, 10000, 0, 0, 110000⟩ : PeriodRecord) ∈
      calculate_schedule 120000 0 (Mode.fixedTerm 1) 0 noExtras ∧
    (10000 : ℚ) = 10000 + 0 :=
  ⟨by decide, c5_payment_split 120000 0 0 noExtras (Mode.fixedTerm 1)
    ⟨1, 10000, 10000, 0, 0, 110000⟩ (by decide)⟩

/-- Claim C6: whenever a period's tentative payment (base + extras) covers
the remaining balance plus that period's interest, the loop emits exactly
one final record: total payment clamped to `balance + interest`, principal
portion the full balance, remaining balance 0, extra-applied
`max 0 (total - (interest + (base - interest)))`, and the iteration stops. -/
theorem c6_payoff_branch (mr bp me : ℚ) (irr : Nat → ℚ) (fuel : Nat) (bal : ℚ) (i : Nat)
    (hbal : 1/100 < bal) (hpay : bal + bal * mr ≤ bp + (me + irr i)) :
    scheduleLoop mr bp me irr (fuel + 1) bal i =
      [⟨i, bal + bal * mr, bal, bal * mr,
        max 0 (bal + bal * mr - (bal * mr + (bp - bal * mr))), 0⟩] := by
  rw [scheduleLoop_succ, if_neg (not_le.2 hbal), if_pos hpay,
    scheduleLoop_of_small mr bp me irr fuel 0 (i + 1) (by norm_num)]

/-- Witness for C6: a mid-loop payoff with base payment 10000 against a
5000 balance at rate 0. -/
theorem c6_witness :
    (1:ℚ)/100 < 5000 ∧ (5000:ℚ) + 5000 * 0 ≤ 10000 + (0 + noExtras 7) ∧
    scheduleLoop 0 10000 0 noExtras 594 5000 7 =
      [⟨7, 5000 + 5000 * 0, 5000, 5000 * 0,
        max 0 (5000 + 5000 * 0 - (5000 * 0 + (10000 - 5000 * 0))), 0⟩] :=
  ⟨by norm_num, by norm_num [noExtras], by
    have h594 : (594 : Nat) = 593 + 1 := rfl
    rw [h594]
    exact c6_payoff_branch 0 10000 0 noExtras 593 5000 7 (by norm_num) (by norm_num [noExtras])⟩

/-- Claim C9: a principal at or below the 0.01 epsilon always yields the
empty schedule — in fixed-term mode and in fixed-payment mode alike
(feasible or not) — because the balance check breaks before the first
record; emptiness therefore does not identify the infeasible-payment
error. -/
theorem c9_empty_ambiguity (P a me : ℚ) (irr : Nat → ℚ) (mode : Mode)
    (hP : P ≤ 1/100) :
    calculate_schedule P a mode me irr = [] := by
  cases mode with
  | fixedTerm y =>
    simp only [calculate_schedule]
    exact scheduleLoop_of_small _ _ _ _ 600 P 1 hP
  | fixedPayment fp =>
    simp only [calculate_schedule]
    split
    · rfl
    · exact scheduleLoop_of_small _ _ _ _ 600 P 1 hP

/-- Witness for C9: a tiny but positive principal, in fixed-term mode and
with a strictly feasible fixed payment. -/
theorem c9_witness :
    (1:ℚ)/200 ≤ 1/100 ∧
    calculate_schedule (1/200) 12 (Mode.fixedTerm 5) 0 noExtras = [] ∧
    calculate_schedule (1/200) 12 (Mode.fixedPayment 300) 0 noExtras = [] :=
  ⟨by norm_num,
    c9_empty_ambiguity (1/200) 12 0 noExtras (Mode.fixedTerm 5) (by norm_num),
    c9_empty_ambiguity (1/200) 12 0 noExtras (Mode.fixedPayment 300) (by norm_num)⟩

/-- Claim C4: for every schedule produced from a valid loan configuration
(non-negative rate; at least one year of term in fixed-term mode) with
non-negative prepayments, every record's remaining balance is
non-negative, and the remaining balance strictly decreases from each
record to the next (reaching zero only at the final record, which the
strict decrease and non-negativity force). -/
theorem c4_remaining_monotone (P a me : ℚ) (irr : Nat → ℚ) (mode : Mode)
    (ha : 0 ≤ a) (hme : 0 ≤ me) (hirr : ∀ j, 0 ≤ irr j)
    (hmode : ∀ y, mode = Mode.fixedTerm y → 1 ≤ y) :
    (∀ rec ∈ calculate_schedule P a mode me irr, 0 ≤ rec.remaining) ∧
    List.Chain' (fun r s => s.remaining < r.remaining)
      (calculate_schedule P a mode me irr) := by
  have hmr : 0 ≤ a/12/100 := div_nonneg (div_nonneg ha (by norm_num)) (by norm_num)
  cases mode with
  | fixedTerm y =>
    have hy : 1 ≤ y := hmode y rfl
    simp only [calculate_schedule]
    by_cases hP : P ≤ 1/100
    · rw [scheduleLoop_of_small _ _ _ _ 600 P 1 hP]
      exact ⟨by simp, List.chain'_nil⟩
    · have hPpos : (0:ℚ) < P := lt_trans (by norm_num) (not_le.1 hP)
      have hbp : P * (a/12/100) < fixedTermBasePayment P (a/12/100) y :=
        fixedTermBasePayment_gt P (a/12/100) y hPpos hmr hy
      exact ⟨fun rec h => (scheduleLoop_remaining_bounds _ _ _ _ P hmr hme hirr hbp
          600 P 1 le_rfl rec h).1,
        scheduleLoop_chain _ _ _ _ P hmr hme hirr hbp 600 P 1 le_rfl⟩
  | fixedPayment fp =>
    simp only [calculate_schedule]
    by_cases hfp : fp ≤ P * (a/12/100)
    · rw [if_pos hfp]
      exact ⟨by simp, List.chain'_nil⟩
    · rw [if_neg hfp]
      have hbp : P * (a/12/100) < fp := not_le.1 hfp
      exact ⟨fun rec h => (scheduleLoop_remaining_bounds _ _ _ _ P hmr hme hirr hbp
          600 P 1 le_rfl rec h).1,
        scheduleLoop_chain _ _ _ _ P hmr hme hirr hbp 600 P 1 le_rfl⟩

/-- Witness for C4: the 15%-rate five-year loan with a one-off prepayment
of 50000 at period 12. -/
theorem c4_witness :
    (0:ℚ) ≤ 15 ∧ (0:ℚ) ≤ 0 ∧
    ((∀ rec ∈ calculate_schedule 500000 15 (Mode.fixedTerm 5) 0
        (fun j => if j = 12 then 50000 else 0), 0 ≤ rec.remaining) ∧
      List.Chain' (fun r s => s.remaining < r.remaining)
        (calculate_schedule 500000 15 (Mode.fixedTerm 5) 0
          (fun j => if j = 12 then 50000 else 0))) :=
  ⟨by norm_num, le_rfl,
    c4_remaining_monotone 500000 15 0 (fun j => if j = 12 then 50000 else 0)
      (Mode.fixedTerm 5) (by norm_num) le_rfl
      (fun j => by by_cases h : j = 12 <;> simp [h])
      (fun y h => by injection h with h2; omega)⟩

/-- Claim C8: the engine always terminates with at most 600 records, and
when the last record's balance is still above the epsilon (the
non-convergence case) the schedule was truncated at exactly 600 records —
with no other error signal than that nonzero final balance. -/
theorem c8_termination_cap (P a me : ℚ) (irr : Nat → ℚ) (mode : Mode) :
    (calculate_schedule P a mode me irr).length ≤ 600 ∧
    (∀ rec, (calculate_schedule P a mode me irr).getLast? = some rec →
      1/100 < rec.remaining → (calculate_schedule P a mode me irr).length = 600) := by
  have hlen : (calculate_schedule P a mode me irr).length ≤ 600 := by
    cases mode with
    | fixedTerm y =>
      simp only [calculate_schedule]
      exact scheduleLoop_length_le _ _ _ _ 600 P 1
    | fixedPayment fp =>
      simp only [calculate_schedule]
      split
      · simp
      · exact scheduleLoop_length_le _ _ _ _ 600 P 1
  refine ⟨hlen, fun rec hlast hbig => ?_⟩
  by_contra hne
  have hlt : (calculate_schedule P a mode me irr).length < 600 := lt_of_le_of_ne hlen hne
  have : rec.remaining = 0 ∨ (0 < rec.remaining ∧ rec.remaining ≤ 1/100) := by
    cases mode with
    | fixedTerm y =>
      simp only [calculate_schedule] at hlast hlt
      exact scheduleLoop_getLast_small _ _ _ _ 600 P 1 rec hlast hlt
    | fixedPayment fp =>
      simp only [calculate_schedule] at hlast hlt
      by_cases hfp : fp ≤ P * (a/12/100)
      · rw [if_pos hfp] at hlast
        simp at hlast
      · rw [if_neg hfp] at hlast hlt
        exact scheduleLoop_getLast_small _ _ _ _ 600 P 1 rec hlast hlt
  rcases this with h | h
  · rw [h] at hbig; norm_num at hbig
  · linarith [h.2]

set_option maxRecDepth 40000 in
set_option maxHeartbeats 2000000 in
/-- Witness for C8: rate 0 with a feasible but tiny fixed payment of 1/50
leaves balance 88 after the full 600 periods — a truncated schedule. -/
theorem c8_witness :
    (calculate_schedule 100 0 (Mode.fixedPayment (1/50)) 0 noExtras).length ≤ 600 ∧
    ((calculate_schedule 100 0 (Mode.fixedPayment (1/50)) 0 noExtras).getLast? =
      some ⟨600, 1/50, 1/50, 0, 0, 88⟩) ∧
    (calculate_schedule 100 0 (Mode.fixedPayment (1/50)) 0 noExtras).length = 600 :=
  ⟨(c8_termination_cap 100 0 0 noExtras (Mode.fixedPayment (1/50))).1, by decide,
    (c8_termination_cap 100 0 0 noExtras (Mode.fixedPayment (1/50))).2
      ⟨600, 1/50, 1/50, 0, 0, 88⟩ (by decide) (by norm_num)⟩

/-- Claim C10: a non-empty schedule of fewer than 600 records ends with a
remaining balance at most the 0.01 epsilon — exactly 0 when it was closed
by the payoff branch, and strictly between 0 and 0.01 when the loop's
epsilon check stopped it after a regular-branch record. -/
theorem c10_final_balance (P a me : ℚ) (irr : Nat → ℚ) (mode : Mode) (rec : PeriodRecord)
    (hlast : (calculate_schedule P a mode me irr).getLast? = some rec)
    (hlen : (calculate_schedule P a mode me irr).length < 600) :
    rec.remaining = 0 ∨ (0 < rec.remaining ∧ rec.remaining ≤ 1/100) := by
  cases mode with
  | fixedTerm y =>
    simp only [calculate_schedule] at hlast hlen
    exact scheduleLoop_getLast_small _ _ _ _ 600 P 1 rec hlast hlen
  | fixedPayment fp =>
    simp only [calculate_schedule] at hlast hlen
    by_cases hfp : fp ≤ P * (a/12/100)
    · rw [if_pos hfp] at hlast
      simp at hlast
    · rw [if_neg hfp] at hlast hlen
      exact scheduleLoop_getLast_small _ _ _ _ 600 P 1 rec hlast hlen

/-- Witness for C10 on the zero-interest 12-month loan, which pays off
exactly. -/
theorem c10_witness :
    ((calculate_schedule 120000 0 (Mode.fixedTerm 1) 0 noExtras).getLast? =
      some ⟨12, 10000, 10000, 0, 0, 0⟩) ∧
    (calculate_schedule 120000 0 (Mode.fixedTerm 1) 0 noExtras).length < 600 ∧
    ((0:ℚ) = 0 ∨ ((0:ℚ) < 0 ∧ (0:ℚ) ≤ 1/100)) :=
  ⟨by decide, by decide,
    c10_final_balance 120000 0 0 noExtras (Mode.fixedTerm 1)
      ⟨12, 10000, 10000, 0, 0, 0⟩ (by decide) (by decide)⟩

/-- Claim C2: holding principal, rate and mode fixed, any non-negative
prepayment specification (recurring and/or one-off) produces a schedule no
longer than the zero-prepayment baseline and with total interest no
greater than the baseline's. -/
theorem c2_prepayment_dominated (P a me' : ℚ) (irr' : Nat → ℚ) (mode : Mode)
    (ha : 0 ≤ a) (hme : 0 ≤ me') (hirr : ∀ j, 0 ≤ irr' j) :
    (calculate_schedule P a mode me' irr').length ≤
      (calculate_schedule P a mode 0 noExtras).length ∧
    totalInterest (calculate_schedule P a mode me' irr') ≤
      totalInterest (calculate_schedule P a mode 0 noExtras) := by
  have hmr : 0 ≤ a/12/100 := div_nonneg (div_nonneg ha (by norm_num)) (by norm_num)
  have hext : ∀ j, (0:ℚ) + noExtras j ≤ me' + irr' j := fun j => by
    simpa [noExtras] using add_nonneg hme (hirr j)
  cases mode with
  | fixedTerm y =>
    simp only [calculate_schedule]
    exact scheduleLoop_compare _ _ _ _ _ _ hmr hext 600 P P 1 le_rfl
  | fixedPayment fp =>
    simp only [calculate_schedule]
    by_cases hfp : fp ≤ P * (a/12/100)
    · rw [if_pos hfp, if_pos hfp]
      exact ⟨le_rfl, le_rfl⟩
    · rw [if_neg hfp, if_neg hfp]
      exact scheduleLoop_compare _ _ _ _ _ _ hmr hext 600 P P 1 le_rfl

/-- Witness for C2: the spec's concrete prepayment scenario (50000 extra at
period 12 of the five-year 15% loan). -/
theorem c2_witness :
    (0:ℚ) ≤ 15 ∧ (0:ℚ) ≤ 0 ∧
    ((calculate_schedule 500000 15 (Mode.fixedTerm 5) 0
        (fun j => if j = 12 then 50000 else 0)).length ≤
      (calculate_schedule 500000 15 (Mode.fixedTerm 5) 0 noExtras).length ∧
    totalInterest (calculate_schedule 500000 15 (Mode.fixedTerm 5) 0
        (fun j => if j = 12 then 50000 else 0)) ≤
      totalInterest (calculate_schedule 500000 15 (Mode.fixedTerm 5) 0 noExtras)) :=
  ⟨by norm_num, le_rfl,
    c2_prepayment_dominated 500000 15 0 (fun j => if j = 12 then 50000 else 0)
      (Mode.fixedTerm 5) (by norm_num) le_rfl (fun j => by by_cases h : j = 12 <;> simp [h])⟩

/-- Claim C7: the fixed-term base payment is the standard annuity payment
`P * (r * (1+r)^months) / ((1+r)^months - 1)` with `months = years * 12`
for a positive monthly rate, and `P / months` at rate zero; concretely, a
zero-interest 120000 loan over 12 months has base payment exactly 10000
and every record carries interest 0 and principal 10000. -/
theorem c7_base_payment_formula :
    (∀ (P mr : ℚ) (y : Nat), 0 < mr →
      fixedTermBasePayment P mr y =
        P * (mr * (1 + mr) ^ (y * 12)) / ((1 + mr) ^ (y * 12) - 1)) ∧
    (∀ (P : ℚ) (y : Nat), fixedTermBasePayment P 0 y = P / ((y * 12 : Nat) : ℚ)) ∧
    fixedTermBasePayment 120000 (0/12/100) 1 = 10000 ∧
    (calculate_schedule 120000 0 (Mode.fixedTerm 1) 0 noExtras).length = 12 ∧
    (∀ rec ∈ calculate_schedule 120000 0 (Mode.fixedTerm 1) 0 noExtras,
      rec.interest = 0 ∧ rec.principalPart = 10000) := by
  refine ⟨?_, ?_, by decide, by decide, by decide⟩
  · intro P mr y h
    unfold fixedTermBasePayment
    rw [if_pos h]
  · intro P y
    unfold fixedTermBasePayment
    rw [if_neg (lt_irrefl 0)]

/-- Witness for C7: the annuity formula at rate 1/80 (15% yearly) and the
even split at rate zero. -/
theorem c7_witness :
    (0:ℚ) < 1/80 ∧
    fixedTermBasePayment 500000 (1/80) 5 =
      500000 * ((1/80) * (1 + 1/80) ^ (5 * 12)) / ((1 + 1/80) ^ (5 * 12) - 1) ∧
    fixedTermBasePayment 100 0 3 = 100 / ((3 * 12 : Nat) : ℚ) :=
  ⟨by norm_num, c7_base_payment_formula.1 500000 (1/80) 5 (by norm_num),
    c7_base_payment_formula.2.1 100 3⟩

/-- Counterexample to claim C1 as stated: the input
(principal 1/200, rate 0, term 1 year) is feasible in the claim's sense —
positive principal, non-negative rate, positive term — and has no
prepayment, yet the schedule is empty (length 0, not 12), because the
principal sits below the 0.01 epsilon and the loop's balance check fires
before any record is appended. -/
theorem c1_counterexample :
    (0:ℚ) < 1/200 ∧ (0:ℚ) ≤ 0 ∧ 0 < 1 * 12 ∧
    (calculate_schedule (1/200) 0 (Mode.fixedTerm 1) 0 noExtras).length ≠ 1 * 12 :=
  ⟨by norm_num, le_rfl, by norm_num, by decide⟩

/-- Claim C1 (amended): in fixed-term mode with no prepayment, for any
positive principal, non-negative rate and term of `y` years with
`y * 12 ≤ 600`, provided the base payment exceeds the epsilon grossed up
by one period of interest (so the schedule never dips below the 0.01
epsilon before its final period), the schedule has length exactly
`y * 12` and its final record's remaining balance is exactly 0.
Concretely: principal 500000 at 15% over 5 years gives base payment within
0.01 of 11894.96, first-record interest exactly 6250, length 60, and final
remaining balance exactly 0. -/
theorem c1_fixed_term :
    (∀ (P a : ℚ) (y : Nat), 0 < P → 0 ≤ a → 1 ≤ y → y * 12 ≤ 600 →
      1/100 * (1 + a/12/100) < fixedTermBasePayment P (a/12/100) y →
      (calculate_schedule P a (Mode.fixedTerm y) 0 noExtras).length = y * 12 ∧
      ((calculate_schedule P a (Mode.fixedTerm y) 0 noExtras).getLast?).map
        PeriodRecord.remaining = some 0) ∧
    (fixedTermBasePayment 500000 (15/12/100) 5 - 1189496/100 ≤ 1/100 ∧
      1189496/100 - fixedTermBasePayment 500000 (15/12/100) 5 ≤ 1/100) ∧
    ((calculate_schedule 500000 15 (Mode.fixedTerm 5) 0 noExtras).head?).map
      PeriodRecord.interest = some 6250 ∧
    (calculate_schedule 500000 15 (Mode.fixedTerm 5) 0 noExtras).length = 60 ∧
    ((calculate_schedule 500000 15 (Mode.fixedTerm 5) 0 noExtras).getLast?).map
      PeriodRecord.remaining = some 0 := by
  refine ⟨?_, by constructor <;> decide, by decide, by decide, by decide⟩
  intro P a y hP ha hy hcap heps
  have hmr : 0 ≤ a/12/100 := div_nonneg (div_nonneg ha (by norm_num)) (by norm_num)
  have hcond : (∀ k, k < y * 12 →
      1/100 < balAfter (a/12/100) (fixedTermBasePayment P (a/12/100) y) P k) ∧
      balAfter (a/12/100) (fixedTermBasePayment P (a/12/100) y) P (y * 12) = 0 := by
    by_cases hpos : 0 < a/12/100
    · exact balAfter_conditions_pos P (a/12/100) y hP hpos hy heps
    · have h0 : a/12/100 = 0 := le_antisymm (not_lt.1 hpos) hmr
      rw [h0]
      rw [h0] at heps
      exact balAfter_conditions_zero P y hP hy heps
  obtain ⟨hlen, rec, hlast, hrem⟩ :=
    scheduleLoop_annuity (a/12/100) (fixedTermBasePayment P (a/12/100) y) (y * 12)
      (by omega) 600 hcap P 1 hcond.1 hcond.2
  simp only [calculate_schedule]
  refine ⟨hlen, ?_⟩
  rw [hlast]
  simp [hrem]

/-- Witness for C1 on a zero-interest one-year loan of 100. -/
theorem c1_witness :
    (0:ℚ) < 100 ∧ (0:ℚ) ≤ 0 ∧ 1 ≤ 1 ∧ 1 * 12 ≤ 600 ∧
    1/100 * (1 + 0/12/100) < fixedTermBasePayment 100 (0/12/100) 1 ∧
    ((calculate_schedule 100 0 (Mode.fixedTerm 1) 0 noExtras).length = 1 * 12 ∧
      ((calculate_schedule 100 0 (Mode.fixedTerm 1) 0 noExtras).getLast?).map
        PeriodRecord.remaining = some 0) :=
  ⟨by norm_num, le_rfl, le_rfl, by norm_num, by decide,
    c1_fixed_term.1 100 0 1 (by norm_num) le_rfl le_rfl (by norm_num) (by decide)⟩

end
